import Mathlib

/-!
Verification of the hordekit substitution-cipher family
(`hordekit/crypto/symmetric/substitution/*.py`, `hordekit/crypto/utils/*.py`,
`hordekit/crypto/cryptoanalysis/ngram_score.py`) against its specification.

Texts are modelled as `List Char` (Python `str`, a sequence of Unicode scalar
values) and byte strings as `List Nat` with entries < 256 (Python `bytes`).
Python's `str.maketrans(xs, ys)` builds a character-to-character map; with
distinct keys (true for every table built here) it is association-list lookup,
and `str.translate` maps unmapped characters to themselves.
-/

set_option maxHeartbeats 4000000
set_option maxRecDepth 8000

deriving instance DecidableEq for Except

namespace Hordekit

/-- Python `str.maketrans(from_chars, to_chars)` followed by `str.translate`
applied to one character: first matching pair wins, missing characters pass
through unchanged. -/
def pyTranslate (tbl : List (Char × Char)) (c : Char) : Char :=
  (List.lookup c tbl).getD c

/-- `str.translate` over a whole text. -/
def pyTranslateStr (tbl : List (Char × Char)) (t : List Char) : List Char :=
  t.map (pyTranslate tbl)

/-- `BaseSubstitutionCipher._setup_algorithm`: `self.alphabet = "ABCDEFGHIJKLMNOPQRSTUVWXYZ"`. -/
def alphabetUpper : List Char := "ABCDEFGHIJKLMNOPQRSTUVWXYZ".toList

/-- `self.alphabet_lower = self.alphabet.lower()`. -/
def alphabetLower : List Char := "abcdefghijklmnopqrstuvwxyz".toList

/-- Python slice pair `l[s:] + l[:s]` used by `CaesarCipher._create_mappings`
for the encryption direction (0 ≤ s). -/
def pyRotSlice (s : Nat) (l : List Char) : List Char :=
  l.drop s ++ l.take s

/-- Python slice pair `l[-s:] + l[:-s]` used by `CaesarCipher._create_mappings`
for the decryption direction (valid for 1 ≤ s ≤ len l, the only shifts that
pass `_validate_parameters`). -/
def pyRotSliceNeg (s : Nat) (l : List Char) : List Char :=
  l.drop (l.length - s) ++ l.take (l.length - s)

/-- `from_chars = self.alphabet + self.alphabet_lower` (Caesar and Affine). -/
def fromChars : List Char := alphabetUpper ++ alphabetLower

/-- `CaesarCipher._create_mappings`: `encrypt_table = str.maketrans(from_chars,
alphabet[shift:] + alphabet[:shift] + lower[shift:] + lower[:shift])`. -/
def caesarEncTable (shift : Nat) : List (Char × Char) :=
  fromChars.zip (pyRotSlice shift alphabetUpper ++ pyRotSlice shift alphabetLower)

/-- `CaesarCipher._create_mappings`: `decrypt_table = str.maketrans(from_chars,
alphabet[-shift:] + alphabet[:-shift] + lower[-shift:] + lower[:-shift])`. -/
def caesarDecTable (shift : Nat) : List (Char × Char) :=
  fromChars.zip (pyRotSliceNeg shift alphabetUpper ++ pyRotSliceNeg shift alphabetLower)

/-- `CaesarCipher._validate_parameters`: shift must be an integer in [1, 25]. -/
def caesarShiftValid (shift : Int) : Bool :=
  1 ≤ shift && shift ≤ 25

/-- `AffineCipher._create_mappings`: `to_chars` is
`alphabet[(a*i + b) % 26]` for each upper position `i`, then the same over the
lowercase alphabet. -/
def affineToChars (a b : Nat) : List Char :=
  ((List.range 26).map fun i => alphabetUpper.getD ((a * i + b) % 26) 'A') ++
    ((List.range 26).map fun i => alphabetLower.getD ((a * i + b) % 26) 'a')

/-- `AffineCipher._create_mappings`: `encrypt_table = str.maketrans(from_chars, to_chars)`. -/
def affineEncTable (a b : Nat) : List (Char × Char) :=
  fromChars.zip (affineToChars a b)

/-- `AffineCipher._create_mappings`: `decrypt_table = str.maketrans(to_chars, from_chars)`. -/
def affineDecTable (a b : Nat) : List (Char × Char) :=
  (affineToChars a b).zip fromChars

/-- `AffineCipher._validate_parameters`: `0 < a < 26`, `0 ≤ b < 26`,
`gcd(a, 26) = 1`. -/
def affineParamsValid (a b : Int) : Bool :=
  0 < a && a < 26 && 0 ≤ b && b < 26 && Int.gcd a 26 = 1

/-- `AtbashCipher.__init__`: Atbash is the Affine cipher with `a=25, b=25`. -/
def atbashEncTable : List (Char × Char) := affineEncTable 25 25

/-- Atbash decryption table (Affine `a=25, b=25`). -/
def atbashDecTable : List (Char × Char) := affineDecTable 25 25

/-- `ROT13Cipher.__init__`: ROT13 is the Caesar cipher with `shift=13`. -/
def rot13EncTable : List (Char × Char) := caesarEncTable 13

/-- ROT13 decryption table (Caesar `shift=13`). -/
def rot13DecTable : List (Char × Char) := caesarDecTable 13

/-- `ROT47Cipher._setup_algorithm`: `alphabet = "".join(chr(i) for i in range(33, 127))`. -/
def rot47Alphabet : List Char := (List.range 94).map fun i => Char.ofNat (33 + i)

/-- `ROT47Cipher._create_mappings`: `to_chars = chr((ord(c) - 33 + 47) % 94 + 33)`
for each alphabet character. -/
def rot47ToChars : List Char :=
  rot47Alphabet.map fun c => Char.ofNat ((c.toNat - 33 + 47) % 94 + 33)

/-- `ROT47Cipher._create_mappings`: `encrypt_table = str.maketrans(from_chars, to_chars)`. -/
def rot47EncTable : List (Char × Char) := rot47Alphabet.zip rot47ToChars

/-- `ROT47Cipher._create_mappings`: `decrypt_table = str.maketrans(to_chars, from_chars)`. -/
def rot47DecTable : List (Char × Char) := rot47ToChars.zip rot47Alphabet

/-! ### UTF-8: `str.encode("utf-8")` and `bytes.decode("utf-8")`

`_encode_raw`/`_decode_raw` first run `data.decode("utf-8")`, which raises
`UnicodeDecodeError` on any byte sequence that is not valid (strict) UTF-8;
this is modelled as an `Option`. `str.encode("utf-8")` is total. -/

/-- UTF-8 encoding of one Unicode scalar value (Python `chr(n).encode("utf-8")`). -/
def utf8EncodeChar (c : Char) : List Nat :=
  if c.toNat < 128 then [c.toNat]
  else if c.toNat < 2048 then [192 + c.toNat / 64, 128 + c.toNat % 64]
  else if c.toNat < 65536 then
    [224 + c.toNat / 4096, 128 + c.toNat / 64 % 64, 128 + c.toNat % 64]
  else
    [240 + c.toNat / 262144, 128 + c.toNat / 4096 % 64, 128 + c.toNat / 64 % 64,
      128 + c.toNat % 64]

/-- `str.encode("utf-8")`. -/
def utf8Encode (cs : List Char) : List Nat :=
  (cs.map utf8EncodeChar).flatten

/-- Tail of a two-byte UTF-8 sequence. -/
def utf8Parse2 (b1 : Nat) : List Nat → Option (Nat × List Nat)
  | b2 :: rest2 =>
    if 128 ≤ b2 ∧ b2 < 192 then some ((b1 - 192) * 64 + (b2 - 128), rest2) else none
  | [] => none

/-- Tail of a three-byte UTF-8 sequence; the second-byte window is narrowed
for lead bytes `E0` (no overlong forms) and `ED` (no surrogates). -/
def utf8Parse3 (b1 : Nat) : List Nat → Option (Nat × List Nat)
  | b2 :: b3 :: rest3 =>
    if (b1 = 224 → 160 ≤ b2) ∧ (b1 = 237 → b2 ≤ 159) ∧
        128 ≤ b2 ∧ b2 < 192 ∧ 128 ≤ b3 ∧ b3 < 192 then
      some ((b1 - 224) * 4096 + (b2 - 128) * 64 + (b3 - 128), rest3)
    else none
  | _ => none

/-- Tail of a four-byte UTF-8 sequence; the second-byte window is narrowed
for lead bytes `F0` (no overlong forms) and `F4` (no values above `U+10FFFF`). -/
def utf8Parse4 (b1 : Nat) : List Nat → Option (Nat × List Nat)
  | b2 :: b3 :: b4 :: rest4 =>
    if (b1 = 240 → 144 ≤ b2) ∧ (b1 = 244 → b2 ≤ 143) ∧
        128 ≤ b2 ∧ b2 < 192 ∧ 128 ≤ b3 ∧ b3 < 192 ∧ 128 ≤ b4 ∧ b4 < 192 then
      some ((b1 - 240) * 262144 + (b2 - 128) * 4096 + (b3 - 128) * 64 + (b4 - 128), rest4)
    else none
  | _ => none

/-- One step of strict UTF-8 decoding: given a lead byte and the remaining
bytes, return the decoded scalar value and the bytes left over, or `none` for
an invalid sequence. Rejects stray or missing continuation bytes, overlong
forms, surrogates and values above `U+10FFFF`, exactly the sequences
CPython's strict codec rejects. -/
def utf8ParseChar (b1 : Nat) (rest : List Nat) : Option (Nat × List Nat) :=
  if b1 < 128 then some (b1, rest)
  else if 194 ≤ b1 ∧ b1 ≤ 223 then utf8Parse2 b1 rest
  else if 224 ≤ b1 ∧ b1 ≤ 239 then utf8Parse3 b1 rest
  else if 240 ≤ b1 ∧ b1 ≤ 244 then utf8Parse4 b1 rest
  else none

/-- Strict UTF-8 decoding of a whole byte string (`bytes.decode("utf-8")`);
`none` models the `UnicodeDecodeError` CPython raises on invalid input. -/
def utf8Decode : List Nat → Option (List Char)
  | [] => some []
  | b1 :: rest =>
    match h : utf8ParseChar b1 rest with
    | some nr => (utf8Decode nr.2).map fun cs => Char.ofNat nr.1 :: cs
    | none => none
termination_by l => l.length
decreasing_by
  have hlen : nr.2.length ≤ rest.length := by
    rw [utf8ParseChar] at h
    split_ifs at h
    · cases h; simp
    · rcases rest with _ | ⟨b2, rest2⟩
      · cases h
      · rw [utf8Parse2] at h
        split_ifs at h
        cases h; simp
    · rcases rest with _ | ⟨b2, _ | ⟨b3, rest3⟩⟩ <;>
        [cases h; cases h; rw [utf8Parse3] at h]
      split_ifs at h
      cases h; simp; omega
    · rcases rest with _ | ⟨b2, _ | ⟨b3, _ | ⟨b4, rest4⟩⟩⟩ <;>
        [cases h; cases h; cases h; rw [utf8Parse4] at h]
      split_ifs at h
      cases h; simp; omega
  simp only [List.length_cons]
  omega

/-- `BaseSubstitutionCipher._encode_raw` / `_decode_raw` (and the identical
Caesar/ROT47 versions): `data.decode("utf-8")`, `text.translate(table)`,
`encrypted.encode("utf-8")`. `none` models the `UnicodeDecodeError` raised on
non-UTF-8 input. The same function with the decryption table is `_decode_raw`. -/
def substRaw (tbl : List (Char × Char)) (data : List Nat) : Option (List Nat) :=
  (utf8Decode data).map fun text => utf8Encode (pyTranslateStr tbl text)

/-- `encode`/`decode` called on a `str`: `_parse_input` UTF-8-encodes the
text, `_encode_raw`/`_decode_raw` runs on the bytes, and `_format_output`
UTF-8-decodes the result back to a `str` (shape tag "string"). -/
def substProcessStr (tbl : List (Char × Char)) (t : List Char) : Option (List Char) :=
  (substRaw tbl (utf8Encode t)).bind utf8Decode


/-! ### Python exceptions and misc primitives -/

/-- The Python exceptions the modelled code can raise. `valueError` covers the
spec's `ValidationError` / `ConfigurationError` / `MissingArgumentError` /
`NoValidKeyError` names (the source raises `ValueError` for all of them);
`uncaughtException` stands for an arbitrary exception propagating out of the
frequency-analysis attack's final unguarded construction/decode. -/
inductive PyErr where
  | valueError
  | unicodeDecodeError
  | attributeError
  | keyError
  | uncaughtException
  deriving Repr, DecidableEq

/-- `str.upper()` (ASCII model: the texts the claims exercise are ASCII;
Python's full-Unicode case mapping agrees with this on ASCII). -/
def pyStrUpper (s : List Char) : List Char := s.map Char.toUpper

/-- `str.lower()` (ASCII model). -/
def pyStrLower (s : List Char) : List Char := s.map Char.toLower

/-- `bytes.upper()`: uppercases the ASCII letter bytes only. -/
def bytesUpper (b : List Nat) : List Nat :=
  b.map fun x => if 97 ≤ x ∧ x ≤ 122 then x - 32 else x

/-! ### The format adapter (`CryptoAlgorithm._parse_input` / `_format_output`) -/

/-- The shape tags `_parse_input` produces: `"bytes"`, `"string"`,
`"file-like"`, `"path"`, `"json"`. -/
inductive ShapeTag where
  | bytes
  | string
  | fileLike
  | path
  | json
  deriving Repr, DecidableEq

/-- The value `_format_output` produces: the raw bytes, a decoded string, a
path written to (the function returns the path after `Path(...).write_bytes`),
a write to the supplied file object (the function returns `True`), or a
decoded structured value (`json.loads` of the UTF-8 decoding; the JSON parse
itself is irrelevant to the claims and the decoded text is carried). -/
inductive FormatOut where
  | outBytes (b : List Nat)
  | outString (s : List Char)
  | outPathWritten (p : List Char) (b : List Nat)
  | outFileWritten (b : List Nat)
  | outJson (s : List Char)
  deriving Repr, DecidableEq

/-- `CryptoAlgorithm._format_output(data, data_type, **kwargs)`.
`outputPath` models `kwargs.get("output_path")` (`none` = not supplied;
the code falls back to the default `"output.bin"`), `hasOutputFile` models
the truthiness of `kwargs.get("output_file")`; a missing `output_file` for the
file-like shape raises `ValueError("output_file required ...")`. -/
def formatOutput (data : List Nat) (tag : ShapeTag)
    (outputPath : Option (List Char)) (hasOutputFile : Bool) : Except PyErr FormatOut :=
  match tag with
  | .bytes => .ok (.outBytes data)
  | .string =>
    match utf8Decode data with
    | some s => .ok (.outString s)
    | none => .error .unicodeDecodeError
  | .path => .ok (.outPathWritten (outputPath.getD "output.bin".toList) data)
  | .fileLike => if hasOutputFile then .ok (.outFileWritten data) else .error .valueError
  | .json =>
    match utf8Decode data with
    | some s => .ok (.outJson s)
    | none => .error .unicodeDecodeError

/-! ### Construction with keyword arguments (claim C7)

Python `**kwargs` is a string-keyed dict; it is modelled as an association
list with distinct keys. Only `int` and `str` values occur in the modelled
paths. -/

/-- A Python value passed as a keyword argument. -/
inductive PyVal where
  | int (n : Int)
  | str (s : List Char)
  deriving Repr, DecidableEq

/-- A constructed substitution-cipher instance is determined by its two
translation tables (`self.encrypt_table` / `self.decrypt_table`): `encode`,
`decode` and every attack depend only on these. -/
structure SubstInstance where
  encTable : List (Char × Char)
  decTable : List (Char × Char)
  deriving Repr, DecidableEq

/-- `CaesarCipher._create_mappings` over an arbitrary (already uppercased)
alphabet, as `_setup_algorithm` builds it. -/
def mkCaesarInstance (alpha : List Char) (shift : Nat) : SubstInstance :=
  let lowerA := pyStrLower alpha
  { encTable := (alpha ++ lowerA).zip (pyRotSlice shift alpha ++ pyRotSlice shift lowerA)
    decTable := (alpha ++ lowerA).zip (pyRotSliceNeg shift alpha ++ pyRotSliceNeg shift lowerA) }

/-- `CaesarCipher._setup_algorithm` with `shift` already bound (the explicit
`shift=13` argument of `ROT13Cipher.__init__`): reads
`kwargs.get("alphabet", "ABCDEFGHIJKLMNOPQRSTUVWXYZ").upper()`. Calling
`.upper()` on a non-`str` raises `AttributeError`. -/
def caesarSetup (kwargs : List (String × PyVal)) (shift : Nat) :
    Except PyErr SubstInstance :=
  match List.lookup "alphabet" kwargs with
  | some (.int _) => .error .attributeError
  | some (.str s) => .ok (mkCaesarInstance (pyStrUpper s) shift)
  | none => .ok (mkCaesarInstance (pyStrUpper "ABCDEFGHIJKLMNOPQRSTUVWXYZ".toList) shift)

/-- `ROT13Cipher.__init__`: pops `"shift"` from kwargs, calls
`CaesarCipher.__init__` with `shift=13`; `ROT13Cipher._validate_parameters`
is a no-op, so only `_setup_algorithm` touches the kwargs. -/
def rot13New (kwargs : List (String × PyVal)) : Except PyErr SubstInstance :=
  caesarSetup (kwargs.filter fun kv => !(kv.1 == "shift")) 13

/-- `AffineCipher._setup_substitution_algorithm` reads only `kwargs["a"]` and
`kwargs["b"]` (`KeyError` if missing); the alphabet is the fixed one set by
`BaseSubstitutionCipher._setup_algorithm`. (`pow(a, -1, 26)` cannot raise on
the Atbash path since `a = 25` is coprime with 26.) -/
def affineSetupModel (kwargs : List (String × PyVal)) : Except PyErr SubstInstance :=
  match List.lookup "a" kwargs, List.lookup "b" kwargs with
  | some (.int a), some (.int b) =>
    .ok { encTable := affineEncTable a.toNat b.toNat, decTable := affineDecTable a.toNat b.toNat }
  | _, _ => .error .keyError

/-- `AtbashCipher.__init__`: pops `"a"`/`"b"` from kwargs and calls
`AffineCipher.__init__(a=25, b=25, **kwargs)`; `AtbashCipher._validate_parameters`
is a no-op, so construction reaches Affine's setup with the fixed key. -/
def atbashNew (kwargs : List (String × PyVal)) : Except PyErr SubstInstance :=
  affineSetupModel (("a", PyVal.int 25) :: ("b", PyVal.int 25) ::
    (kwargs.filter fun kv => !(kv.1 == "a" || kv.1 == "b")))

/-- `ROT47Cipher.__init__` → `_validate_parameters` (no-op) →
`_setup_algorithm`, which reads no kwargs at all and builds the fixed tables. -/
def rot47New (_kwargs : List (String × PyVal)) : Except PyErr SubstInstance :=
  .ok { encTable := rot47EncTable, decTable := rot47DecTable }

/-! ### Decode used by the attacks

Every attack calls `instance.decode(ciphertext)` on a `str`; by
`substProcessStr_eq` the pipeline returns exactly the translated text, so the
attack models use the translation directly. -/

/-- `CaesarCipher(shift=s).decode(ct)` for a `str` ciphertext. -/
def caesarDecodeStr (s : Nat) (ct : List Char) : List Char :=
  pyTranslateStr (caesarDecTable s) ct

/-! ### Brute force (claim C6) -/

/-- The result dictionary of `_attack_brute_force`. `bestMatch`/`bestShift`
are present only when the final `best_match` is truthy (a nonempty string);
`maskMatched` is present (`some`) only in that case or when a mask was
supplied. -/
structure BruteForceResult (K : Type) where
  allResults : List (K × List Char)
  bestMatch : Option (List Char)
  bestKey : Option K
  maskMatched : Option Bool
  deriving Repr, DecidableEq

/-- The loop body shared by both brute-force attacks: remember the current
decryption whenever the mask matches (`re.search`), overwriting any earlier
match. The mask is modelled as a predicate (`re.search(mask, ·)` for a
supplied, non-empty pattern; `none` when absent). -/
def bruteStep {K : Type} (mask : Option (List Char → Bool)) :
    Option (List Char) × Option K → K × List Char → Option (List Char) × Option K :=
  fun acc e =>
    match mask with
    | some p => if p e.2 then (some e.2, some e.1) else acc
    | none => acc

/-- Assemble the result dictionary from the collected decryptions and the
final `best_match`/`best_key` pair, following the truthiness tests
`if best_match: ... elif mask: ...`. -/
def bruteAssemble {K : Type} (mask : Option (List Char → Bool))
    (entries : List (K × List Char)) (best : Option (List Char) × Option K) :
    BruteForceResult K :=
  let truthy := match best.1 with | some d => !d.isEmpty | none => false
  { allResults := entries
    bestMatch := if truthy then best.1 else none
    bestKey := if truthy then best.2 else none
    maskMatched := if truthy then some true else if mask.isSome then some false else none }

/-- `CaesarCipher._attack_brute_force`: shifts `range(1, 26)` in order, no
exception handling (every construction succeeds). Raises `ValueError` when
the ciphertext is empty/falsy. -/
def caesarBruteForce (mask : Option (List Char → Bool)) (ct : List Char) :
    Except PyErr (BruteForceResult Nat) :=
  if ct = [] then .error .valueError
  else
    let entries := (List.range' 1 25).map fun s => (s, caesarDecodeStr s ct)
    .ok (bruteAssemble mask entries (entries.foldl (bruteStep mask) (none, none)))

/-- `BaseSubstitutionCipher._attack_brute_force`: generic over the key list
from `_get_possible_keys`; `decrypt k` is `cls(**k).decode(ciphertext)` with
`none` modelling the `try/except Exception: continue` skip. -/
def bruteForceBase {K : Type} (keys : List K) (decrypt : K → Option (List Char))
    (mask : Option (List Char → Bool)) (ct : List Char) :
    Except PyErr (BruteForceResult K) :=
  if ct = [] then .error .valueError
  else
    let entries := keys.filterMap fun k => (decrypt k).map fun d => (k, d)
    .ok (bruteAssemble mask entries (entries.foldl (bruteStep mask) (none, none)))

/-! ### N-gram scoring (`_NScoring.score`) and frequency analysis -/

/-- The argument `_NScoring.score` receives: the in-loop calls pass the
decrypted `str`, the final result dictionary passes
`decrypted.encode("utf-8")`, a `bytes` object. -/
inductive PyText where
  | str (s : List Char)
  | bytes (b : List Nat)
  deriving Repr, DecidableEq

/-- `len(text)`. -/
def pyTextLen : PyText → Nat
  | .str s => s.length
  | .bytes b => b.length

/-- `text[i : i+n].upper()`. -/
def pyTextSliceUpper (t : PyText) (i n : Nat) : PyText :=
  match t with
  | .str s => .str (pyStrUpper ((s.drop i).take n))
  | .bytes b => .bytes (bytesUpper ((b.drop i).take n))

/-- `ngram in self._ngrams` / `self._ngrams[ngram]`: the table keys are `str`
(read from the data file), so a `bytes` n-gram never equals any key and the
lookup always misses for `bytes` input. Scores are modelled as rationals
(float rounding is irrelevant to the claims). -/
def ngramLookup (tab : List (List Char × ℚ)) : PyText → Option ℚ
  | .str s => List.lookup s tab
  | .bytes _ => none

/-- `_NScoring.score(text)`: slide a window of length `N`, add the table's
log-probability for seen n-grams and the floor for unseen ones.
`pyTextLen t + 1 - N` (truncated) equals Python's `max(0, len(text) - N + 1)`. -/
def ngramScore (tab : List (List Char × ℚ)) (floorv : ℚ) (N : Nat) (t : PyText) : ℚ :=
  (List.range (pyTextLen t + 1 - N)).foldl
    (fun acc i => acc + ((ngramLookup tab (pyTextSliceUpper t i N)).getD floorv)) 0

/-- `mono*0.3 + bi*0.4 + tri*0.3` on the decrypted `str`, as the selection
loop computes it. -/
def combinedScore (monoT biT triT : List (List Char × ℚ)) (monoF biF triF : ℚ)
    (d : List Char) : ℚ :=
  3/10 * ngramScore monoT monoF 1 (.str d) + 4/10 * ngramScore biT biF 2 (.str d) +
    3/10 * ngramScore triT triF 3 (.str d)

/-- The result dictionary of `CaesarCipher._attack_frequency_analysis`.
`confidence = none` models the initial `float("-inf")`. -/
structure FreqResult where
  mostLikelyShift : Nat
  confidence : Option ℚ
  decryptedText : List Char
  monogramScore : ℚ
  bigramScore : ℚ
  trigramScore : ℚ
  deriving Repr, DecidableEq

/-- `CaesarCipher._attack_frequency_analysis`, parametric in the three n-gram
tables and floors (the `monograms.txt`/`bigrams.txt`/`trigrams.txt` data files
are not part of the source tree; per the spec they map uppercase n-grams to
log-probabilities with a floor below every stored value). The in-loop
`try/except` around the scorer calls can never fire for a `str` argument, so
it is not modelled; the three scores in the returned dictionary are computed
on `decrypted.encode("utf-8")` — a `bytes` value — exactly as the source does. -/
def caesarFreqAnalysis (monoT biT triT : List (List Char × ℚ)) (monoF biF triF : ℚ)
    (ct : List Char) : Except PyErr FreqResult :=
  if ct = [] then .error .valueError
  else
    let step := fun (acc : Nat × Option ℚ) (s : Nat) =>
      let comb := combinedScore monoT biT triT monoF biF triF (caesarDecodeStr s ct)
      if (match acc.2 with | none => true | some bs => bs < comb) then (s, some comb) else acc
    let best := (List.range' 1 25).foldl step (1, none)
    let d := caesarDecodeStr best.1 ct
    .ok { mostLikelyShift := best.1
          confidence := best.2
          decryptedText := d
          monogramScore := ngramScore monoT monoF 1 (.bytes (utf8Encode d))
          bigramScore := ngramScore biT biF 2 (.bytes (utf8Encode d))
          trigramScore := ngramScore triT triF 3 (.bytes (utf8Encode d)) }

/-- The result dictionary of the generic
`BaseSubstitutionCipher._attack_frequency_analysis`. -/
structure FreqResultG (K : Type) where
  mostLikelyKey : K
  confidence : Option ℚ
  decryptedText : List Char
  scores : ℚ × ℚ × ℚ
  deriving Repr, DecidableEq

/-- The candidate loop body of the generic frequency analysis: skip the key
when construction/decode raised (`decrypt k = none`, outer handler) or when
scoring raised (`score3 d = none`, inner handler); otherwise keep the key on
a strictly better combined score, `none` standing for the initial
`float("-inf")`. -/
def freqStep {K : Type} (decrypt : K → Option (List Char))
    (score3 : List Char → Option (ℚ × ℚ × ℚ)) (acc : K × Option ℚ) (k : K) :
    K × Option ℚ :=
  match decrypt k with
  | none => acc
  | some d =>
    match score3 d with
    | none => acc
    | some (m, bi, tr) =>
      let comb := 3/10 * m + 4/10 * bi + 3/10 * tr
      if (match acc.2 with | none => true | some bs => bs < comb) then (k, some comb)
      else acc

/-- `BaseSubstitutionCipher._attack_frequency_analysis`, generic over the
cipher class: `decrypt k` models `cls(**k).decode(ciphertext)` with `none`
for a raised exception (outer `try/except ... continue`), `score3` the three
in-loop scorer calls on the decoded text (`none` for the inner
`try/except ... continue`), `scoreFinal` the final recomputation on the
UTF-8 bytes of the winning decryption (total — see `ngramScore` on `bytes`).
After the loop the source rebuilds `cls(**best_key)` and decodes *outside*
any handler; a failure there propagates (`uncaughtException`). -/
def freqAnalysisBase {K : Type} (keys : List K) (decrypt : K → Option (List Char))
    (score3 : List Char → Option (ℚ × ℚ × ℚ)) (scoreFinal : List Char → ℚ × ℚ × ℚ)
    (ct : List Char) : Except PyErr (FreqResultG K) :=
  if ct = [] then .error .valueError
  else
    match keys with
    | [] => .error .valueError
    | k0 :: _ =>
      let best := keys.foldl (freqStep decrypt score3) (k0, none)
      match decrypt best.1 with
      | none => .error .uncaughtException
      | some d => .ok ⟨best.1, best.2, d, scoreFinal d⟩

/-! ### Known-plaintext attacks (claims C5, C9) -/

/-- `ord(ch) - ord("A")` for an (uppercased) letter, as an integer. -/
def letterVal (c : Char) : Int := (c.toNat : Int) - 65

/-- `pow(x, -1, 26)`: the unique inverse in `[0, 26)` when `gcd(x, 26) = 1`,
otherwise a `ValueError` (modelled as `none`, which the caller turns into the
"no solution" return). -/
def modInverse26 (x : Nat) : Option Nat :=
  (List.range 26).find? fun y => x * y % 26 == 1

/-- The collection loop of `AffineCipher._attack_known_plaintext`: walk
`zip(plaintext, ciphertext)`, keep the first `n` pairs whose characters are
both alphabetic (uppercased), stopping as soon as `n` are found. Python's
`str.isalpha` is modelled for ASCII letters (the alphabet the attack's
algebra addresses). -/
def takeAlphaPairs : Nat → List (Char × Char) → List (Char × Char)
  | _, [] => []
  | 0, _ => []
  | n + 1, (p, c) :: rest =>
    if p.isAlpha && c.isAlpha then
      (Char.toUpper p, Char.toUpper c) :: takeAlphaPairs n rest
    else takeAlphaPairs (n + 1) rest

/-- `AffineCipher._attack_known_plaintext`. Raises `ValueError` when either
argument is empty; otherwise returns the recovered key or `None`. The final
verification re-encodes the full plaintext (`test_instance.encode(plaintext)`,
which for a `str` is exactly the translation, see `substProcessStr_eq`) and
compares it with the given ciphertext; the construction `cls(a=a, b=b)` cannot
fail at that point since `0 < a < 26`, `0 ≤ b < 26` and `gcd(a, 26) = 1` all
hold. -/
def affineKnownPlaintext (pt ct : List Char) : Except PyErr (Option (Nat × Nat)) :=
  if pt = [] ∨ ct = [] then .error .valueError
  else
    match takeAlphaPairs 2 (pt.zip ct) with
    | [x, y] =>
      if (letterVal x.1 - letterVal y.1) % 26 = 0 then .ok none
      else
        match modInverse26 ((letterVal x.1 - letterVal y.1) % 26).toNat with
        | none => .ok none
        | some inv =>
          if Nat.gcd (((letterVal x.2 - letterVal y.2) % 26).toNat * inv % 26) 26 ≠ 1 then
            .ok none
          else
            if pyTranslateStr
                (affineEncTable (((letterVal x.2 - letterVal y.2) % 26).toNat * inv % 26)
                  (((letterVal x.2 -
                    ((((letterVal x.2 - letterVal y.2) % 26).toNat * inv % 26 : Nat) : Int) *
                      letterVal x.1) % 26).toNat))
                pt = ct then
              .ok (some ((((letterVal x.2 - letterVal y.2) % 26).toNat * inv % 26),
                (((letterVal x.2 -
                  ((((letterVal x.2 - letterVal y.2) % 26).toNat * inv % 26 : Nat) : Int) *
                    letterVal x.1) % 26).toNat)))
            else .ok none
    | _ => .ok none

/-- The scanning loop of `CaesarCipher._attack_known_plaintext` over the
uppercased texts: return at the first position whose plaintext **and**
ciphertext characters are both in the instance alphabet `"A".."Z"` (a
position whose ciphertext character is not alphabetic does *not* return —
the loop continues). Positions beyond the ciphertext's length cannot return
(`i < len(ciphertext_upper)` fails), so scanning `zip` is exact. -/
def caesarKPAGo : List (Char × Char) → Option Int
  | [] => none
  | (pc, cc) :: rest =>
    if pc ∈ alphabetUpper then
      if cc ∈ alphabetUpper then
        some (((List.indexOf cc alphabetUpper : Int) - (List.indexOf pc alphabetUpper : Int)) % 26)
      else caesarKPAGo rest
    else caesarKPAGo rest

/-- `CaesarCipher._attack_known_plaintext`: `ValueError` on empty arguments,
otherwise the shift from the first aligned alphabetic pair, or `None`. -/
def caesarKnownPlaintext (pt ct : List Char) : Except PyErr (Option Int) :=
  if pt = [] ∨ ct = [] then .error .valueError
  else .ok (caesarKPAGo ((pyStrUpper pt).zip (pyStrUpper ct)))

/-! ## Theorems -/

theorem char_toNat_valid (c : Char) :
    c.toNat < 55296 ∨ (57343 < c.toNat ∧ c.toNat < 1114112) := by
  rcases c.valid with h | h
  · exact Or.inl h
  · exact Or.inr h

theorem utf8ParseChar_encode (c : Char) (rest : List Nat) :
    ∃ b1 tail, utf8EncodeChar c ++ rest = b1 :: tail ∧
      utf8ParseChar b1 tail = some (c.toNat, rest) := by
  have hval := char_toNat_valid c
  rw [utf8EncodeChar]
  by_cases h1 : c.toNat < 128
  · refine ⟨c.toNat, rest, by rw [if_pos h1]; rfl, ?_⟩
    rw [utf8ParseChar, if_pos h1]
  · rw [if_neg h1]
    by_cases h2 : c.toNat < 2048
    · refine ⟨192 + c.toNat / 64, (128 + c.toNat % 64) :: rest,
        by rw [if_pos h2]; rfl, ?_⟩
      rw [utf8ParseChar, if_neg (by omega), if_pos (by omega), utf8Parse2,
        if_pos (by omega)]
      simp only [Option.some.injEq, Prod.mk.injEq]
      exact ⟨by omega, trivial⟩
    · rw [if_neg h2]
      by_cases h3 : c.toNat < 65536
      · refine ⟨224 + c.toNat / 4096, (128 + c.toNat / 64 % 64) :: (128 + c.toNat % 64) :: rest,
          by rw [if_pos h3]; rfl, ?_⟩
        rw [utf8ParseChar, if_neg (by omega), if_neg (by omega), if_pos (by omega), utf8Parse3,
          if_pos (by refine ⟨by omega, by omega, by omega, by omega, by omega, by omega⟩)]
        simp only [Option.some.injEq, Prod.mk.injEq]
        exact ⟨by omega, trivial⟩
      · refine ⟨240 + c.toNat / 262144, (128 + c.toNat / 4096 % 64) ::
          (128 + c.toNat / 64 % 64) :: (128 + c.toNat % 64) :: rest,
          by rw [if_neg h3]; rfl, ?_⟩
        rw [utf8ParseChar, if_neg (by omega), if_neg (by omega), if_neg (by omega),
          if_pos (by omega), utf8Parse4,
          if_pos (by refine ⟨by omega, by omega, by omega, by omega, by omega, by omega,
            by omega, by omega⟩)]
        simp only [Option.some.injEq, Prod.mk.injEq]
        exact ⟨by omega, trivial⟩

theorem utf8Decode_encodeChar_append (c : Char) (rest : List Nat) :
    utf8Decode (utf8EncodeChar c ++ rest) = (utf8Decode rest).map (c :: ·) := by
  obtain ⟨b1, tail, heq, hparse⟩ := utf8ParseChar_encode c rest
  rw [heq, utf8Decode]
  split
  · rename_i nr hnr
    rw [hparse] at hnr
    have : nr = (c.toNat, rest) := by exact Option.some_injective _ hnr.symm
    subst this
    rw [Char.ofNat_toNat]
  · rename_i hnone
    rw [hparse] at hnone
    cases hnone

theorem utf8_roundtrip (cs : List Char) : utf8Decode (utf8Encode cs) = some cs := by
  induction cs with
  | nil => simp [utf8Encode, utf8Decode]
  | cons c ct ih =>
    rw [utf8Encode] at ih ⊢
    simp only [List.map_cons, List.flatten_cons]
    rw [utf8Decode_encodeChar_append, ih]
    rfl

/-! ### Association-list lookup facts (Python dict built by `str.maketrans`) -/

theorem lookup_eq_none_of_not_mem {α β : Type} [BEq α] [LawfulBEq α]
    {tbl : List (α × β)} {c : α} (h : c ∉ tbl.map Prod.fst) :
    List.lookup c tbl = none := by
  induction tbl with
  | nil => rfl
  | cons p t ih =>
    obtain ⟨k, v⟩ := p
    simp only [List.map_cons, List.mem_cons, not_or] at h
    rw [List.lookup_cons]
    have hk : (c == k) = false := by
      simp only [beq_eq_false_iff_ne, ne_eq]
      exact h.1
    rw [hk]
    exact ih h.2

theorem mem_values_of_lookup_zip {ks vs : List Char} {c v : Char}
    (h : List.lookup c (ks.zip vs) = some v) : v ∈ vs := by
  induction ks generalizing vs with
  | nil => simp [List.lookup] at h
  | cons k kt ih =>
    cases vs with
    | nil => simp [List.lookup] at h
    | cons v0 vt =>
      rw [List.zip_cons_cons, List.lookup_cons] at h
      cases hck : c == k with
      | true => rw [hck] at h; simp at h; simp [h]
      | false =>
        rw [hck] at h
        exact List.mem_cons_of_mem _ (ih h)

theorem lookup_zip_isSome_of_mem {ks vs : List Char} {c : Char}
    (hlen : ks.length ≤ vs.length) (hc : c ∈ ks) :
    (List.lookup c (ks.zip vs)).isSome := by
  induction ks generalizing vs with
  | nil => simp at hc
  | cons k kt ih =>
    cases vs with
    | nil => simp at hlen
    | cons v0 vt =>
      rw [List.zip_cons_cons, List.lookup_cons]
      cases hck : c == k with
      | true => simp
      | false =>
        have hmem : c ∈ kt := by
          rcases List.mem_cons.mp hc with h | h
          · subst h; simp at hck
          · exact h
        exact ih (by simpa using Nat.le_of_succ_le_succ hlen) hmem

theorem lookup_zip_swap {ks vs : List Char} {c v : Char}
    (hlen : ks.length = vs.length) (hndv : vs.Nodup)
    (h : List.lookup c (ks.zip vs) = some v) :
    List.lookup v (vs.zip ks) = some c := by
  induction ks generalizing vs with
  | nil => simp [List.lookup] at h
  | cons k kt ih =>
    cases vs with
    | nil => simp [List.lookup] at h
    | cons v0 vt =>
      rw [List.zip_cons_cons, List.lookup_cons] at h
      rw [List.zip_cons_cons, List.lookup_cons]
      cases hck : c == k with
      | true =>
        rw [hck] at h
        have hv : v0 = v := by simpa using h
        subst hv
        have hvv : (v0 == v0) = true := by simp
        rw [hvv]
        have hcx : c = k := by simpa using hck
        simp [hcx]
      | false =>
        rw [hck] at h
        have hvvt : v ∈ vt := mem_values_of_lookup_zip h
        have hv0 : v ≠ v0 := by
          intro heq
          subst heq
          exact (List.nodup_cons.mp hndv).1 hvvt
        have hvb : (v == v0) = false := by simpa using hv0
        rw [hvb]
        exact ih (by simpa using hlen) (List.nodup_cons.mp hndv).2 h

/-! ### The Affine mapping is a permutation of the alphabet and inverts -/

theorem affine_idx_inj {a : Nat} (ha : Nat.gcd a 26 = 1) (b : Nat) {i j : Nat}
    (hi : i < 26) (hj : j < 26) (h : (a * i + b) % 26 = (a * j + b) % 26) : i = j := by
  have h1 : a * i + b ≡ a * j + b [MOD 26] := h
  have h2 : a * i ≡ a * j [MOD 26] := h1.add_right_cancel' b
  have h3 : i ≡ j [MOD 26] :=
    Nat.ModEq.cancel_left_of_coprime (by rwa [Nat.gcd_comm]) h2
  have h4 : i % 26 = j % 26 := h3
  rwa [Nat.mod_eq_of_lt hi, Nat.mod_eq_of_lt hj] at h4

theorem affine_half_nodup {alpha : List Char} (hnd : alpha.Nodup)
    (hlen : alpha.length = 26) {a : Nat} (ha : Nat.gcd a 26 = 1) (b : Nat) (d : Char) :
    ((List.range 26).map fun i => alpha.getD ((a * i + b) % 26) d).Nodup := by
  apply List.Nodup.map_on _ (List.nodup_range 26)
  intro i hi j hj hf
  have hi26 : i < 26 := List.mem_range.mp hi
  have hj26 : j < 26 := List.mem_range.mp hj
  have hidx1 : (a * i + b) % 26 < alpha.length := by rw [hlen]; exact Nat.mod_lt _ (by norm_num)
  have hidx2 : (a * j + b) % 26 < alpha.length := by rw [hlen]; exact Nat.mod_lt _ (by norm_num)
  rw [List.getD_eq_get _ _ hidx1, List.getD_eq_get _ _ hidx2] at hf
  have hfin := hnd.get_inj_iff.mp hf
  have hval : (a * i + b) % 26 = (a * j + b) % 26 := congrArg Fin.val hfin
  exact affine_idx_inj ha b hi26 hj26 hval

theorem mem_of_mem_half {alpha : List Char} {a b : Nat} {d x : Char}
    (hlen : alpha.length = 26)
    (h : x ∈ (List.range 26).map fun i => alpha.getD ((a * i + b) % 26) d) :
    x ∈ alpha := by
  obtain ⟨i, _, hx⟩ := List.mem_map.mp h
  have hidx : (a * i + b) % 26 < alpha.length := by rw [hlen]; exact Nat.mod_lt _ (by norm_num)
  rw [List.getD_eq_get _ _ hidx] at hx
  exact hx ▸ List.get_mem _ _ _

theorem affineToChars_nodup {a : Nat} (ha : Nat.gcd a 26 = 1) (b : Nat) :
    (affineToChars a b).Nodup := by
  rw [affineToChars, List.nodup_append]
  refine ⟨affine_half_nodup (by decide) (by decide) ha b 'A',
    affine_half_nodup (by decide) (by decide) ha b 'a', ?_⟩
  intro x hx1 hx2
  have h1 : x ∈ alphabetUpper := mem_of_mem_half (by decide) hx1
  have h2 : x ∈ alphabetLower := mem_of_mem_half (by decide) hx2
  have hdisj : ∀ y ∈ alphabetUpper, y ∉ alphabetLower := by decide
  exact hdisj x h1 h2

theorem affineToChars_subset {a b : Nat} {x : Char} (h : x ∈ affineToChars a b) :
    x ∈ fromChars := by
  rcases List.mem_append.mp h with h1 | h1
  · exact List.mem_append.mpr (Or.inl (mem_of_mem_half (by decide) h1))
  · exact List.mem_append.mpr (Or.inr (mem_of_mem_half (by decide) h1))

theorem affineToChars_length (a b : Nat) : (affineToChars a b).length = 52 := by
  simp [affineToChars]

theorem fromChars_length : fromChars.length = 52 := by decide

theorem affine_char_roundtrip {a : Nat} (ha : Nat.gcd a 26 = 1) (b : Nat) (c : Char) :
    pyTranslate (affineDecTable a b) (pyTranslate (affineEncTable a b) c) = c := by
  by_cases hc : c ∈ fromChars
  · have hlen : fromChars.length ≤ (affineToChars a b).length := by
      rw [fromChars_length, affineToChars_length]
    obtain ⟨v, hv⟩ := Option.isSome_iff_exists.mp (lookup_zip_isSome_of_mem hlen hc)
    have henc : pyTranslate (affineEncTable a b) c = v := by
      rw [pyTranslate, affineEncTable, hv]; rfl
    have hswap := lookup_zip_swap (by rw [fromChars_length, affineToChars_length])
      (affineToChars_nodup ha b) hv
    rw [henc, pyTranslate, affineDecTable, hswap]; rfl
  · have hkeys : (affineEncTable a b).map Prod.fst = fromChars :=
      List.map_fst_zip _ _ (by rw [fromChars_length, affineToChars_length])
    have henc : pyTranslate (affineEncTable a b) c = c := by
      rw [pyTranslate, lookup_eq_none_of_not_mem (hkeys ▸ hc)]; rfl
    have hkeys2 : (affineDecTable a b).map Prod.fst = affineToChars a b :=
      List.map_fst_zip _ _ (by rw [fromChars_length, affineToChars_length])
    have hc2 : c ∉ affineToChars a b := fun h => hc (affineToChars_subset h)
    rw [henc, pyTranslate, lookup_eq_none_of_not_mem (hkeys2 ▸ hc2)]; rfl

/-! ### Caesar and ROT47 character-level round trips -/

theorem pyRotSlice_length (s : Nat) (l : List Char) : (pyRotSlice s l).length = l.length := by
  simp [pyRotSlice]
  omega

theorem pyRotSliceNeg_length (s : Nat) (l : List Char) :
    (pyRotSliceNeg s l).length = l.length := by
  simp [pyRotSliceNeg]

theorem caesar_char_rt_aux : ∀ s ∈ List.range 26, ∀ c ∈ fromChars,
    pyTranslate (caesarDecTable s) (pyTranslate (caesarEncTable s) c) = c := by decide

theorem caesarEncTable_length (s : Nat) :
    (pyRotSlice s alphabetUpper ++ pyRotSlice s alphabetLower).length = 52 := by
  rw [List.length_append, pyRotSlice_length, pyRotSlice_length]
  all_goals decide

theorem caesarDecTable_length (s : Nat) :
    (pyRotSliceNeg s alphabetUpper ++ pyRotSliceNeg s alphabetLower).length = 52 := by
  rw [List.length_append, pyRotSliceNeg_length, pyRotSliceNeg_length]
  all_goals decide

theorem caesar_char_roundtrip {s : Nat} (hs : s < 26) (c : Char) :
    pyTranslate (caesarDecTable s) (pyTranslate (caesarEncTable s) c) = c := by
  by_cases hc : c ∈ fromChars
  · exact caesar_char_rt_aux s (List.mem_range.mpr hs) c hc
  · have hk1 : (caesarEncTable s).map Prod.fst = fromChars :=
      List.map_fst_zip _ _ (by rw [fromChars_length, caesarEncTable_length])
    have hk2 : (caesarDecTable s).map Prod.fst = fromChars :=
      List.map_fst_zip _ _ (by rw [fromChars_length, caesarDecTable_length])
    have henc : pyTranslate (caesarEncTable s) c = c := by
      rw [pyTranslate, lookup_eq_none_of_not_mem (hk1 ▸ hc)]; rfl
    have hdec : pyTranslate (caesarDecTable s) c = c := by
      rw [pyTranslate, lookup_eq_none_of_not_mem (hk2 ▸ hc)]; rfl
    rw [henc, hdec]

theorem rot47ToChars_nodup : rot47ToChars.Nodup := by decide

theorem rot47ToChars_subset : ∀ x ∈ rot47ToChars, x ∈ rot47Alphabet := by decide

theorem rot47_lengths : rot47Alphabet.length = 94 ∧ rot47ToChars.length = 94 := by decide

theorem rot47_char_roundtrip (c : Char) :
    pyTranslate rot47DecTable (pyTranslate rot47EncTable c) = c := by
  by_cases hc : c ∈ rot47Alphabet
  · obtain ⟨v, hv⟩ := Option.isSome_iff_exists.mp
      (@lookup_zip_isSome_of_mem rot47Alphabet rot47ToChars c (by decide) hc)
    have henc : pyTranslate rot47EncTable c = v := by
      rw [pyTranslate, rot47EncTable, hv]; rfl
    have hswap := @lookup_zip_swap rot47Alphabet rot47ToChars c v (by decide)
      rot47ToChars_nodup hv
    rw [henc, pyTranslate, rot47DecTable, hswap]; rfl
  · have hk1 : rot47EncTable.map Prod.fst = rot47Alphabet :=
      List.map_fst_zip _ _ (by decide)
    have hk2 : rot47DecTable.map Prod.fst = rot47ToChars :=
      List.map_fst_zip _ _ (by decide)
    have hc2 : c ∉ rot47ToChars := fun h => hc (rot47ToChars_subset _ h)
    have henc : pyTranslate rot47EncTable c = c := by
      rw [pyTranslate, lookup_eq_none_of_not_mem (hk1 ▸ hc)]; rfl
    have hdec : pyTranslate rot47DecTable c = c := by
      rw [pyTranslate, lookup_eq_none_of_not_mem (hk2 ▸ hc2)]; rfl
    rw [henc, hdec]

/-! ### The full string pipeline -/

theorem substProcessStr_eq (tbl : List (Char × Char)) (t : List Char) :
    substProcessStr tbl t = some (pyTranslateStr tbl t) := by
  rw [substProcessStr, substRaw, utf8_roundtrip]
  simp [utf8_roundtrip]

theorem translate_rt_str {encT decT : List (Char × Char)}
    (h : ∀ c, pyTranslate decT (pyTranslate encT c) = c) (t : List Char) :
    pyTranslateStr decT (pyTranslateStr encT t) = t := by
  rw [pyTranslateStr, pyTranslateStr, List.map_map]
  have hcomp : (pyTranslate decT ∘ pyTranslate encT) = id := funext h
  rw [hcomp, List.map_id]

/-! ### Claim C1: round trip for every cipher variant -/

/-- C1. Round-trip: for every cipher variant (Caesar with any valid shift,
Affine with any valid (a,b), Atbash, ROT13, ROT47) and every text `T` (any
`str`, i.e. any sequence of Unicode scalar values), `decode(encode(T)) = T`
through the full pipeline (UTF-8 parse, translate, UTF-8 format); composing
encode then decode is the identity on characters in the alphabet and on
characters outside it alike. -/
theorem c1_round_trip :
    (∀ s : Int, caesarShiftValid s = true → ∀ t : List Char,
      (substProcessStr (caesarEncTable s.toNat) t).bind
        (substProcessStr (caesarDecTable s.toNat)) = some t) ∧
    (∀ a b : Int, affineParamsValid a b = true → ∀ t : List Char,
      (substProcessStr (affineEncTable a.toNat b.toNat) t).bind
        (substProcessStr (affineDecTable a.toNat b.toNat)) = some t) ∧
    (∀ t : List Char,
      (substProcessStr atbashEncTable t).bind (substProcessStr atbashDecTable) = some t) ∧
    (∀ t : List Char,
      (substProcessStr rot13EncTable t).bind (substProcessStr rot13DecTable) = some t) ∧
    (∀ t : List Char,
      (substProcessStr rot47EncTable t).bind (substProcessStr rot47DecTable) = some t) := by
  have hcaesar : ∀ s : Nat, s < 26 → ∀ t : List Char,
      (substProcessStr (caesarEncTable s) t).bind
        (substProcessStr (caesarDecTable s)) = some t := by
    intro s hs t
    rw [substProcessStr_eq, Option.some_bind, substProcessStr_eq,
      translate_rt_str (caesar_char_roundtrip hs)]
  have haffine : ∀ a b : Nat, Nat.gcd a 26 = 1 → ∀ t : List Char,
      (substProcessStr (affineEncTable a b) t).bind
        (substProcessStr (affineDecTable a b)) = some t := by
    intro a b ha t
    rw [substProcessStr_eq, Option.some_bind, substProcessStr_eq,
      translate_rt_str (affine_char_roundtrip ha b)]
  refine ⟨?_, ?_, ?_, ?_, ?_⟩
  · intro s hs t
    rw [caesarShiftValid] at hs
    simp only [Bool.and_eq_true, decide_eq_true_eq] at hs
    exact hcaesar s.toNat (by omega) t
  · intro a b hab t
    rw [affineParamsValid] at hab
    simp only [Bool.and_eq_true, decide_eq_true_eq] at hab
    have ha : Nat.gcd a.toNat 26 = 1 := by
      have hg0 : Int.gcd a 26 = 1 := hab.2
      have heq : a.natAbs = a.toNat := by
        have h0 : (0 : Int) < a := hab.1.1.1.1
        omega
      rw [Int.gcd, heq] at hg0
      simpa using hg0
    exact haffine a.toNat b.toNat ha t
  · exact fun t => haffine 25 25 (by decide) t
  · exact fun t => hcaesar 13 (by decide) t
  · intro t
    rw [substProcessStr_eq, Option.some_bind, substProcessStr_eq,
      translate_rt_str rot47_char_roundtrip]

/-- Witness for C1 at concrete inputs (Caesar shift 3, Affine (a,b)=(5,8),
and the fixed-key variants) on the sample text "Hello, World!". -/
theorem c1_round_trip_witness :
    ((substProcessStr (caesarEncTable 3) "Hello, World!".toList).bind
        (substProcessStr (caesarDecTable 3)) = some "Hello, World!".toList) ∧
    ((substProcessStr (affineEncTable 5 8) "AFFINECIPHER".toList).bind
        (substProcessStr (affineDecTable 5 8)) = some "AFFINECIPHER".toList) ∧
    ((substProcessStr atbashEncTable "AtBaSh".toList).bind
        (substProcessStr atbashDecTable) = some "AtBaSh".toList) ∧
    ((substProcessStr rot13EncTable "ROT13".toList).bind
        (substProcessStr rot13DecTable) = some "ROT13".toList) ∧
    ((substProcessStr rot47EncTable "ROT47!~".toList).bind
        (substProcessStr rot47DecTable) = some "ROT47!~".toList) :=
  ⟨c1_round_trip.1 3 (by decide) _, c1_round_trip.2.1 5 8 (by decide) _,
    c1_round_trip.2.2.1 _, c1_round_trip.2.2.2.1 _, c1_round_trip.2.2.2.2 _⟩

/-! ### Claim C8: the fixed-key variants are self-inverse -/

theorem atbash_enc_eq_dec_aux : ∀ c ∈ fromChars,
    pyTranslate atbashEncTable c = pyTranslate atbashDecTable c := by decide

theorem atbash_enc_eq_dec (c : Char) :
    pyTranslate atbashEncTable c = pyTranslate atbashDecTable c := by
  by_cases hc : c ∈ fromChars
  · exact atbash_enc_eq_dec_aux c hc
  · have hk1 : atbashEncTable.map Prod.fst = fromChars :=
      List.map_fst_zip _ _ (by rw [fromChars_length, affineToChars_length])
    have hk2 : atbashDecTable.map Prod.fst = affineToChars 25 25 :=
      List.map_fst_zip _ _ (by rw [fromChars_length, affineToChars_length])
    have hc2 : c ∉ affineToChars 25 25 := fun h => hc (affineToChars_subset h)
    rw [pyTranslate, lookup_eq_none_of_not_mem (hk1 ▸ hc),
      pyTranslate, lookup_eq_none_of_not_mem (hk2 ▸ hc2)]

theorem rot13_enc_eq_dec_aux : ∀ c ∈ fromChars,
    pyTranslate rot13EncTable c = pyTranslate rot13DecTable c := by decide

theorem rot13_enc_eq_dec (c : Char) :
    pyTranslate rot13EncTable c = pyTranslate rot13DecTable c := by
  by_cases hc : c ∈ fromChars
  · exact rot13_enc_eq_dec_aux c hc
  · have hk1 : rot13EncTable.map Prod.fst = fromChars :=
      List.map_fst_zip _ _ (by rw [fromChars_length, caesarEncTable_length])
    have hk2 : rot13DecTable.map Prod.fst = fromChars :=
      List.map_fst_zip _ _ (by rw [fromChars_length, caesarDecTable_length])
    rw [pyTranslate, lookup_eq_none_of_not_mem (hk1 ▸ hc),
      pyTranslate, lookup_eq_none_of_not_mem (hk2 ▸ hc)]

theorem rot47_enc_eq_dec_aux : ∀ c ∈ rot47Alphabet,
    pyTranslate rot47EncTable c = pyTranslate rot47DecTable c := by decide

theorem rot47_enc_eq_dec (c : Char) :
    pyTranslate rot47EncTable c = pyTranslate rot47DecTable c := by
  by_cases hc : c ∈ rot47Alphabet
  · exact rot47_enc_eq_dec_aux c hc
  · have hk1 : rot47EncTable.map Prod.fst = rot47Alphabet :=
      List.map_fst_zip _ _ (by decide)
    have hk2 : rot47DecTable.map Prod.fst = rot47ToChars :=
      List.map_fst_zip _ _ (by decide)
    have hc2 : c ∉ rot47ToChars := fun h => hc (rot47ToChars_subset _ h)
    rw [pyTranslate, lookup_eq_none_of_not_mem (hk1 ▸ hc),
      pyTranslate, lookup_eq_none_of_not_mem (hk2 ▸ hc2)]

/-- C8. Self-inverse: for Atbash, ROT13 and ROT47, `encode(encode(T)) = T`
for every text `T`, and indeed the encryption mapping agrees with the
decryption mapping character-by-character for these fixed-key variants. -/
theorem c8_self_inverse :
    (∀ t : List Char,
      (substProcessStr atbashEncTable t).bind (substProcessStr atbashEncTable) = some t) ∧
    (∀ t : List Char,
      (substProcessStr rot13EncTable t).bind (substProcessStr rot13EncTable) = some t) ∧
    (∀ t : List Char,
      (substProcessStr rot47EncTable t).bind (substProcessStr rot47EncTable) = some t) ∧
    (∀ c : Char, pyTranslate atbashEncTable c = pyTranslate atbashDecTable c) ∧
    (∀ c : Char, pyTranslate rot13EncTable c = pyTranslate rot13DecTable c) ∧
    (∀ c : Char, pyTranslate rot47EncTable c = pyTranslate rot47DecTable c) := by
  refine ⟨?_, ?_, ?_, atbash_enc_eq_dec, rot13_enc_eq_dec, rot47_enc_eq_dec⟩
  · intro t
    rw [substProcessStr_eq, Option.some_bind, substProcessStr_eq]
    have h : ∀ c, pyTranslate atbashEncTable (pyTranslate atbashEncTable c) = c := by
      intro c
      rw [atbash_enc_eq_dec (pyTranslate atbashEncTable c)]
      exact affine_char_roundtrip (by decide) 25 c
    rw [translate_rt_str h]
  · intro t
    rw [substProcessStr_eq, Option.some_bind, substProcessStr_eq]
    have h : ∀ c, pyTranslate rot13EncTable (pyTranslate rot13EncTable c) = c := by
      intro c
      rw [rot13_enc_eq_dec (pyTranslate rot13EncTable c)]
      exact caesar_char_roundtrip (by omega) c
    rw [translate_rt_str h]
  · intro t
    rw [substProcessStr_eq, Option.some_bind, substProcessStr_eq]
    have h : ∀ c, pyTranslate rot47EncTable (pyTranslate rot47EncTable c) = c := by
      intro c
      rw [rot47_enc_eq_dec (pyTranslate rot47EncTable c)]
      exact rot47_char_roundtrip c
    rw [translate_rt_str h]

/-! ### Claim C2: totality of the raw layer -/

/-- Counterexample to C2 as stated: the single byte `0xFF` is not valid
UTF-8, so `_encode_raw` / `_decode_raw` (here of `CaesarCipher(shift=3)`)
raise `UnicodeDecodeError` instead of returning bytes — the raw layer is not
total on arbitrary byte sequences. -/
theorem c2_totality_counterexample :
    substRaw (caesarEncTable 3) [255] = none ∧ substRaw (caesarDecTable 3) [255] = none := by
  constructor <;> simp [substRaw, utf8Decode, utf8ParseChar]

/-- C2 amended: for every constructed instance (any translation table) and
every byte sequence `d`, `_encode_raw(d)` and `_decode_raw(d)` are pure
deterministic functions that succeed exactly when `d` is valid UTF-8 — on
valid UTF-8 they return the UTF-8 encoding of the translated text, and on any
other byte sequence they raise `UnicodeDecodeError`. -/
theorem c2_totality_amended (tbl : List (Char × Char)) (d : List Nat) :
    ((substRaw tbl d).isSome ↔ (utf8Decode d).isSome) ∧
    (∀ text, utf8Decode d = some text →
      substRaw tbl d = some (utf8Encode (pyTranslateStr tbl text))) := by
  constructor
  · rw [substRaw]
    cases utf8Decode d <;> simp
  · intro text ht
    rw [substRaw, ht]
    rfl

/-- Witness for C2 (amended) at the UTF-8 encoding of "Abc" and the Caesar
shift-3 table: the raw layer succeeds and translates. -/
theorem c2_totality_amended_witness :
    (substRaw (caesarEncTable 3) (utf8Encode "Abc".toList)).isSome ∧
    substRaw (caesarEncTable 3) (utf8Encode "Abc".toList) =
      some (utf8Encode (pyTranslateStr (caesarEncTable 3) "Abc".toList)) :=
  ⟨((c2_totality_amended (caesarEncTable 3) (utf8Encode "Abc".toList)).1).mpr
      (by rw [utf8_roundtrip]; rfl),
    (c2_totality_amended (caesarEncTable 3) (utf8Encode "Abc".toList)).2 "Abc".toList
      (utf8_roundtrip "Abc".toList)⟩

/-! ### Claim C4: missing output destination -/

/-- Counterexample to C4 as stated: formatting output for a path-shaped input
with *no* destination supplied does **not** fail — `_format_output` silently
falls back to the default path `"output.bin"` and reports success. -/
theorem c4_path_counterexample :
    formatOutput [104] ShapeTag.path none false =
      .ok (.outPathWritten "output.bin".toList [104]) := rfl

/-- C4 amended: only the stream (file-like) shape fails when no destination
is supplied (a `ValueError`, the spec's `ConfigurationError`); the path shape
never fails — without `output_path` it writes to the default `"output.bin"`
(and with a destination the file-like shape succeeds). -/
theorem c4_output_destination_amended (data : List Nat) (outputPath : Option (List Char)) :
    formatOutput data ShapeTag.fileLike outputPath false = .error .valueError ∧
    formatOutput data ShapeTag.path none false =
      .ok (.outPathWritten "output.bin".toList data) ∧
    formatOutput data ShapeTag.fileLike outputPath true = .ok (.outFileWritten data) :=
  ⟨rfl, rfl, rfl⟩

/-! ### Claim C7: extra parameters and the fixed-key variants -/

/-- Counterexample to C7 as stated: `ROT13Cipher(alphabet="ABC")` is accepted
but the extra parameter is **not** ignored — Caesar's setup consumes
`alphabet`, producing an instance that encodes 'D' to 'D' where the
parameterless instance encodes 'D' to 'Q'; and a non-string `alphabet=5`
makes construction raise (`.upper()` on an `int`), so construction does not
always succeed either. -/
theorem c7_rot13_alphabet_counterexample :
    rot13New [("alphabet", PyVal.str "ABC".toList)] =
      .ok (mkCaesarInstance "ABC".toList 13) ∧
    rot13New [] = .ok (mkCaesarInstance (pyStrUpper "ABCDEFGHIJKLMNOPQRSTUVWXYZ".toList) 13) ∧
    pyTranslate (mkCaesarInstance "ABC".toList 13).encTable 'D' = 'D' ∧
    pyTranslate (mkCaesarInstance (pyStrUpper "ABCDEFGHIJKLMNOPQRSTUVWXYZ".toList) 13).encTable 'D' = 'Q' ∧
    rot13New [("alphabet", PyVal.int 5)] = .error .attributeError := by
  refine ⟨rfl, rfl, by decide, by decide, rfl⟩

theorem lookup_none_filter {l : List (String × PyVal)} {k : String}
    (p : String × PyVal → Bool) (h : List.lookup k l = none) :
    List.lookup k (l.filter p) = none := by
  induction l with
  | nil => rfl
  | cons e t ih =>
    obtain ⟨k0, v⟩ := e
    rw [List.lookup_cons] at h
    cases hk : k == k0 with
    | true => rw [hk] at h; cases h
    | false =>
      rw [hk] at h
      rw [List.filter_cons]
      split
      · rw [List.lookup_cons, hk]
        exact ih h
      · exact ih h
      
/-- C7 amended: Atbash and ROT47 ignore every extra keyword parameter —
construction succeeds and yields exactly the parameterless instance; ROT13
does the same for every keyword set that does not contain `alphabet`
(`alphabet` is consumed by the inherited Caesar setup and changes, or for a
non-string breaks, construction). -/
theorem c7_ignore_extra_params_amended (kwargs : List (String × PyVal)) :
    atbashNew kwargs = atbashNew [] ∧
    rot47New kwargs = rot47New [] ∧
    (List.lookup "alphabet" kwargs = none → rot13New kwargs = rot13New []) := by
  refine ⟨rfl, rfl, fun h => ?_⟩
  have h2 : List.lookup "alphabet" (kwargs.filter fun kv => !(kv.1 == "shift")) = none :=
    lookup_none_filter _ h
  rw [rot13New, caesarSetup, h2]
  rfl

/-- Witness for C7 (amended) at a concrete extra-parameter set. -/
theorem c7_ignore_extra_params_witness :
    atbashNew [("junk", PyVal.int 7)] = atbashNew [] ∧
    rot47New [("junk", PyVal.int 7)] = rot47New [] ∧
    rot13New [("junk", PyVal.int 7)] = rot13New [] :=
  ⟨(c7_ignore_extra_params_amended [("junk", PyVal.int 7)]).1,
    (c7_ignore_extra_params_amended [("junk", PyVal.int 7)]).2.1,
    (c7_ignore_extra_params_amended [("junk", PyVal.int 7)]).2.2 rfl⟩

/-! ### Claim C9: Caesar known-plaintext can recover shift 0 -/

theorem caesarKPAGo_eq_find (l : List (Char × Char)) :
    caesarKPAGo l =
      (l.find? fun pc =>
        decide (pc.1 ∈ alphabetUpper) && decide (pc.2 ∈ alphabetUpper)).map
        (fun pc => ((List.indexOf pc.2 alphabetUpper : Int) -
          (List.indexOf pc.1 alphabetUpper : Int)) % 26) := by
  induction l with
  | nil => rfl
  | cons e t ih =>
    obtain ⟨p, c⟩ := e
    by_cases h1 : p ∈ alphabetUpper
    · by_cases h2 : c ∈ alphabetUpper
      · rw [caesarKPAGo, if_pos h1, if_pos h2,
          List.find?_cons_of_pos _ (by simp [h1, h2])]
        rfl
      · rw [caesarKPAGo, if_pos h1, if_neg h2,
          List.find?_cons_of_neg _ (by simp [h2]), ih]
    · rw [caesarKPAGo, if_neg h1,
        List.find?_cons_of_neg _ (by simp [h1]), ih]

/-- C9. The Caesar known-plaintext attack returns
`(cipherIndex - plainIndex) mod 26` for the *first* aligned pair of
alphabetic characters (and `None` when no such pair exists); whenever that
pair consists of equal letters the returned shift is `0`, which lies outside
the range `[1, 25]` accepted by `CaesarCipher._validate_parameters`, so the
recovered key cannot construct a cipher instance. -/
theorem c9_caesar_kpa_zero_shift (pt ct : List Char) (hpt : pt ≠ []) (hct : ct ≠ []) :
    (∀ p c : Char,
      (((pyStrUpper pt).zip (pyStrUpper ct)).find? fun pc =>
          decide (pc.1 ∈ alphabetUpper) && decide (pc.2 ∈ alphabetUpper)) = some (p, c) →
      caesarKnownPlaintext pt ct =
        .ok (some (((List.indexOf c alphabetUpper : Int) -
          (List.indexOf p alphabetUpper : Int)) % 26)) ∧
      (p = c → caesarKnownPlaintext pt ct = .ok (some 0) ∧ caesarShiftValid 0 = false)) ∧
    ((((pyStrUpper pt).zip (pyStrUpper ct)).find? fun pc =>
        decide (pc.1 ∈ alphabetUpper) && decide (pc.2 ∈ alphabetUpper)) = none →
      caesarKnownPlaintext pt ct = .ok none) := by
  have hne : ¬(pt = [] ∨ ct = []) := by simp [hpt, hct]
  constructor
  · intro p c hfind
    have h1 : caesarKnownPlaintext pt ct =
        .ok (some (((List.indexOf c alphabetUpper : Int) -
          (List.indexOf p alphabetUpper : Int)) % 26)) := by
      rw [caesarKnownPlaintext, if_neg hne, caesarKPAGo_eq_find, hfind]
      rfl
    refine ⟨h1, fun hpc => ⟨?_, rfl⟩⟩
    subst hpc
    rw [h1]
    norm_num
  · intro hfind
    rw [caesarKnownPlaintext, if_neg hne, caesarKPAGo_eq_find, hfind]
    rfl

/-- Witness for C9: on the pair ("abc", "abc") the first aligned alphabetic
pair is ('A', 'A'), the attack returns shift 0, and 0 fails validation. -/
theorem c9_caesar_kpa_zero_shift_witness :
    caesarKnownPlaintext "abc".toList "abc".toList = .ok (some 0) ∧
      caesarShiftValid 0 = false :=
  ((c9_caesar_kpa_zero_shift "abc".toList "abc".toList (by decide) (by decide)).1
    'A' 'A' (by decide)).2 rfl

/-! ### Claim C5: Affine known-plaintext recovery -/

/-- Counterexample to C5 as stated: on plaintext "AAB" and its encryption
"BBE" under the valid key (a,b) = (3,1), the attack takes the *first two*
aligned alphabetic pairs — both ('A','B') — without skipping the duplicate
plaintext letter, hits `p1 = p2` and returns `None`, even though the key is
recoverable from the distinct letters at positions 0 and 2. -/
theorem c5_skip_duplicates_counterexample :
    affineKnownPlaintext "AAB".toList "BBE".toList = .ok none ∧
    pyTranslateStr (affineEncTable 3 1) "AAB".toList = "BBE".toList ∧
    affineParamsValid 3 1 = true ∧
    takeAlphaPairs 2 ("AAB".toList.zip "BBE".toList) = [('A', 'B'), ('A', 'B')] := by
  refine ⟨by decide, by decide, by decide, by decide⟩

/-- C5 amended: the attack derives the key from the **first two** aligned
alphabetic pairs (duplicates are *not* skipped); with those pairs
`(x, y)` it solves `a = (c1-c2)·(p1-p2)⁻¹ mod 26`, `b = (c1 - a·p1) mod 26`,
and returns `None` when fewer than two aligned alphabetic pairs exist, when
the two plaintext letters coincide (`p1 = p2 mod 26`), when `p1 - p2` has no
inverse mod 26 (`pow` raises), when the derived `a` is not coprime with 26,
or when re-encoding the plaintext with the recovered key fails to reproduce
the ciphertext — this verification always gates success. -/
theorem c5_affine_kpa_amended (pt ct : List Char) (hpt : pt ≠ []) (hct : ct ≠ []) :
    ((takeAlphaPairs 2 (pt.zip ct)).length < 2 → affineKnownPlaintext pt ct = .ok none) ∧
    (∀ x y, takeAlphaPairs 2 (pt.zip ct) = [x, y] →
      ((letterVal x.1 - letterVal y.1) % 26 = 0 → affineKnownPlaintext pt ct = .ok none) ∧
      (modInverse26 ((letterVal x.1 - letterVal y.1) % 26).toNat = none →
        affineKnownPlaintext pt ct = .ok none) ∧
      (∀ inv, modInverse26 ((letterVal x.1 - letterVal y.1) % 26).toNat = some inv →
        (letterVal x.1 - letterVal y.1) % 26 ≠ 0 →
        (Nat.gcd (((letterVal x.2 - letterVal y.2) % 26).toNat * inv % 26) 26 ≠ 1 →
          affineKnownPlaintext pt ct = .ok none) ∧
        (Nat.gcd (((letterVal x.2 - letterVal y.2) % 26).toNat * inv % 26) 26 = 1 →
          affineKnownPlaintext pt ct = .ok (
            if pyTranslateStr
                (affineEncTable (((letterVal x.2 - letterVal y.2) % 26).toNat * inv % 26)
                  (((letterVal x.2 -
                    ((((letterVal x.2 - letterVal y.2) % 26).toNat * inv % 26 : Nat) : Int) *
                      letterVal x.1) % 26).toNat))
                pt = ct
            then some ((((letterVal x.2 - letterVal y.2) % 26).toNat * inv % 26),
              (((letterVal x.2 -
                ((((letterVal x.2 - letterVal y.2) % 26).toNat * inv % 26 : Nat) : Int) *
                  letterVal x.1) % 26).toNat))
            else none)))) := by
  have hne : ¬(pt = [] ∨ ct = []) := by simp [hpt, hct]
  constructor
  · intro hlen
    rw [affineKnownPlaintext, if_neg hne]
    cases hp : takeAlphaPairs 2 (pt.zip ct) with
    | nil => rfl
    | cons x rest =>
      cases rest with
      | nil => rfl
      | cons y rest2 =>
        cases rest2 with
        | nil => rw [hp] at hlen; simp at hlen
        | cons z rest3 => rfl
  · intro x y hp
    have hbase : ∀ r, affineKnownPlaintext pt ct = r ↔
        (if (letterVal x.1 - letterVal y.1) % 26 = 0 then Except.ok none
         else
           match modInverse26 ((letterVal x.1 - letterVal y.1) % 26).toNat with
           | none => Except.ok none
           | some inv =>
             if Nat.gcd (((letterVal x.2 - letterVal y.2) % 26).toNat * inv % 26) 26 ≠ 1 then
               Except.ok none
             else
               if pyTranslateStr
                   (affineEncTable (((letterVal x.2 - letterVal y.2) % 26).toNat * inv % 26)
                     (((letterVal x.2 -
                       ((((letterVal x.2 - letterVal y.2) % 26).toNat * inv % 26 : Nat) : Int) *
                         letterVal x.1) % 26).toNat))
                   pt = ct then
                 Except.ok (some ((((letterVal x.2 - letterVal y.2) % 26).toNat * inv % 26),
                   (((letterVal x.2 -
                     ((((letterVal x.2 - letterVal y.2) % 26).toNat * inv % 26 : Nat) : Int) *
                       letterVal x.1) % 26).toNat)))
               else Except.ok none) = r := by
      intro r
      rw [affineKnownPlaintext, if_neg hne, hp]
    refine ⟨?_, ?_, ?_⟩
    · intro h0
      rw [hbase, if_pos h0]
    · intro hinv
      rw [hbase]
      by_cases h0 : (letterVal x.1 - letterVal y.1) % 26 = 0
      · rw [if_pos h0]
      · rw [if_neg h0, hinv]
    · intro inv hinv h0
      constructor
      · intro hgcd
        rw [hbase, if_neg h0, hinv]
        dsimp only
        rw [if_pos hgcd]
      · intro hgcd
        rw [hbase, if_neg h0, hinv]
        dsimp only
        rw [if_neg (not_not_intro hgcd)]
        split_ifs <;> rfl

/-- Witness for C5 (amended) on plaintext "AB" and ciphertext "BE"
(the encryption under (a,b) = (3,1)): the recovery succeeds and the
verification holds. -/
theorem c5_affine_kpa_amended_witness :
    affineKnownPlaintext "AB".toList "BE".toList = .ok (some (3, 1)) := by
  have h := (((c5_affine_kpa_amended "AB".toList "BE".toList (by decide) (by decide)).2
    ('A', 'B') ('B', 'E') (by decide)).2.2 25 (by decide) (by decide)).2 (by decide)
  rw [h]
  decide

/-! ### Claim C6: brute force with a mask -/

theorem getLast?_cons_ne {α : Type} (a : α) {l : List α} (h : l ≠ []) :
    (a :: l).getLast? = l.getLast? := by
  cases l with
  | nil => exact absurd rfl h
  | cons b t => rfl

theorem getLast?_eq_none_iff {α : Type} {l : List α} : l.getLast? = none ↔ l = [] := by
  cases l with
  | nil => simp
  | cons b t => simp [List.getLast?_eq_getLast_of_ne_nil]

/-- The brute-force fold keeps the *last* mask match: its result is the last
entry of the filtered enumeration (or the initial accumulator when nothing
matches). -/
theorem bruteFold_last {K : Type} (p : List Char → Bool) (entries : List (K × List Char))
    (acc : Option (List Char) × Option K) :
    entries.foldl (bruteStep (some p)) acc =
      match (entries.filter fun e => p e.2).getLast? with
      | some e => (some e.2, some e.1)
      | none => acc := by
  induction entries generalizing acc with
  | nil => rfl
  | cons e t ih =>
    rw [List.foldl_cons]
    by_cases hp : p e.2
    · have hstep : bruteStep (some p) acc e = (some e.2, some e.1) := by
        simp only [bruteStep]
        rw [if_pos hp]
      rw [hstep, ih]
      simp only [List.filter_cons, hp, if_pos]
      cases hl : (t.filter fun e => p e.2).getLast? with
      | none =>
        have ht : (t.filter fun e => p e.2) = [] := getLast?_eq_none_iff.mp hl
        rw [ht]
        rfl
      | some e2 =>
        have hne : (t.filter fun e => p e.2) ≠ [] := by
          intro hc
          rw [hc] at hl
          cases hl
        rw [getLast?_cons_ne _ hne, hl]
    · have hstep : bruteStep (some p) acc e = acc := by
        simp only [bruteStep]
        rw [if_neg hp]
      rw [hstep, ih]
      simp only [List.filter_cons, hp]
      rw [if_neg (by simp [hp])]

/-- The assembled brute-force dictionary, for entry lists whose decryptions
are nonempty strings (true whenever the ciphertext is nonempty, since
translation preserves length): `best_key`/`best_match` are the last match of
the enumeration and `mask_matched` is present and true iff some decryption
matched. -/
theorem bruteResult_spec {K : Type} (p : List Char → Bool)
    (entries : List (K × List Char)) (hne : ∀ e ∈ entries, e.2 ≠ []) :
    (bruteAssemble (some p) entries
        (entries.foldl (bruteStep (some p)) (none, none))).bestKey =
      ((entries.filter fun e => p e.2).getLast?).map Prod.fst ∧
    (bruteAssemble (some p) entries
        (entries.foldl (bruteStep (some p)) (none, none))).bestMatch =
      ((entries.filter fun e => p e.2).getLast?).map Prod.snd ∧
    ((bruteAssemble (some p) entries
        (entries.foldl (bruteStep (some p)) (none, none))).maskMatched = some true ↔
      ∃ e ∈ entries, p e.2) ∧
    ((bruteAssemble (some p) entries
        (entries.foldl (bruteStep (some p)) (none, none))).maskMatched = some false ↔
      ∀ e ∈ entries, ¬p e.2) := by
  rw [bruteFold_last]
  cases hl : (entries.filter fun e => p e.2).getLast? with
  | none =>
    have hemp : (entries.filter fun e => p e.2) = [] := getLast?_eq_none_iff.mp hl
    have hnomatch : ∀ e ∈ entries, ¬p e.2 := by
      intro e he hp
      have : e ∈ entries.filter fun e => p e.2 := List.mem_filter.mpr ⟨he, hp⟩
      rw [hemp] at this
      cases this
    refine ⟨rfl, rfl, ?_, ?_⟩
    · simp only [bruteAssemble]
      constructor
      · intro h
        cases h
      · intro ⟨e, he, hp⟩
        exact absurd hp (hnomatch e he)
    · simp only [bruteAssemble]
      exact ⟨fun _ => hnomatch, fun _ => rfl⟩
  | some e =>
    have hmem : e ∈ entries.filter fun x => p x.2 := by
      have hne2 : (entries.filter fun x => p x.2) ≠ [] := by
        intro hc
        rw [hc] at hl
        cases hl
      rw [List.getLast?_eq_getLast_of_ne_nil hne2] at hl
      have := List.getLast_mem hne2
      rwa [Option.some_injective _ hl] at this
    obtain ⟨hee, hpe⟩ := List.mem_filter.mp hmem
    have hnee : e.2 ≠ [] := hne e hee
    have hE : (!e.2.isEmpty) = true := by
      simp [List.isEmpty_iff, hnee]
    refine ⟨?_, ?_, ?_, ?_⟩
    · simp only [bruteAssemble]
      rw [if_pos hE]
      rfl
    · simp only [bruteAssemble]
      rw [if_pos hE]
      rfl
    · simp only [bruteAssemble]
      rw [if_pos hE]
      exact ⟨fun _ => ⟨e, hee, hpe⟩, fun _ => rfl⟩
    · simp only [bruteAssemble]
      rw [if_pos hE]
      constructor
      · intro h
        cases h
      · intro h
        exact absurd hpe (h e hee)

/-- C6. Brute force with a mask: for every nonempty ciphertext and pattern
(modelled as a predicate, `re.search(mask, ·)`), the reported
`best_key`/`best_match` pair is the **last** key in enumeration order whose
decryption matches (ties favor later enumeration), and `mask_matched` is
present and `True` iff at least one candidate decryption matched — both for
`CaesarCipher._attack_brute_force` (shifts 1..25) and for the generic
`BaseSubstitutionCipher._attack_brute_force` (whose failed candidates are
skipped), provided each decryption is a nonempty string, which holds since
translation preserves length. -/
theorem c6_brute_force_last_match (ct : List Char) (hct : ct ≠ []) (p : List Char → Bool) :
    (∃ r, caesarBruteForce (some p) ct = .ok r ∧
      r.bestKey = ((List.range' 1 25).filter fun s => p (caesarDecodeStr s ct)).getLast? ∧
      r.bestMatch = (((List.range' 1 25).filter fun s => p (caesarDecodeStr s ct)).getLast?).map
        (fun s => caesarDecodeStr s ct) ∧
      (r.maskMatched = some true ↔ ∃ s ∈ List.range' 1 25, p (caesarDecodeStr s ct)) ∧
      (r.maskMatched = some false ↔ ∀ s ∈ List.range' 1 25, ¬p (caesarDecodeStr s ct))) ∧
    (∀ (K : Type) (keys : List K) (decrypt : K → Option (List Char)),
      (∀ k d, decrypt k = some d → d ≠ []) →
      ∃ r, bruteForceBase keys decrypt (some p) ct = .ok r ∧
        r.bestKey = (((keys.filterMap fun k => (decrypt k).map fun d => (k, d)).filter
          fun e => p e.2).getLast?).map Prod.fst ∧
        r.bestMatch = (((keys.filterMap fun k => (decrypt k).map fun d => (k, d)).filter
          fun e => p e.2).getLast?).map Prod.snd ∧
        (r.maskMatched = some true ↔
          ∃ e ∈ (keys.filterMap fun k => (decrypt k).map fun d => (k, d)), p e.2)) := by
  constructor
  · have hne : ∀ e ∈ (List.range' 1 25).map fun s => (s, caesarDecodeStr s ct),
        e.2 ≠ [] := by
      intro e he
      obtain ⟨s, _, hs⟩ := List.mem_map.mp he
      subst hs
      simp only [caesarDecodeStr, pyTranslateStr]
      intro hmap
      exact hct (List.map_eq_nil_iff.mp hmap)
    obtain ⟨h1, h2, h3, h4⟩ := bruteResult_spec p _ hne
    refine ⟨_, by rw [caesarBruteForce, if_neg hct], ?_, ?_, ?_, ?_⟩
    · rw [h1, List.filter_map, List.getLast?_map]
      simp [Option.map_map, Function.comp_def]
    · rw [h2, List.filter_map, List.getLast?_map]
      simp [Option.map_map, Function.comp_def]
    · rw [h3]
      simp [List.mem_map]
    · rw [h4]
      constructor
      · intro h s hs hp
        exact (h _ (List.mem_map.mpr ⟨s, hs, rfl⟩)) hp
      · intro h e he
        obtain ⟨s, hs, rfl⟩ := List.mem_map.mp he
        exact h s hs
  · intro K keys decrypt hdec
    have hne : ∀ e ∈ keys.filterMap fun k => (decrypt k).map fun d => (k, d),
        e.2 ≠ [] := by
      intro e he
      obtain ⟨k, _, hk⟩ := List.mem_filterMap.mp he
      cases hd : decrypt k with
      | none => rw [hd] at hk; cases hk
      | some d =>
        rw [hd] at hk
        have : (k, d) = e := by simpa using hk
        subst this
        exact hdec k d hd
    obtain ⟨h1, h2, h3, _⟩ := bruteResult_spec p _ hne
    exact ⟨_, by rw [bruteForceBase, if_neg hct], h1, h2, h3⟩

/-- Witness for C6: ciphertext "BCD" with the pattern "decryption equals
ABC" — only shift 1 matches, so it is the (last) reported key and
`mask_matched` is true. -/
theorem c6_brute_force_last_match_witness :
    ∃ r, caesarBruteForce (some fun d => d == "ABC".toList) "BCD".toList = .ok r ∧
      r.bestKey = some 1 ∧ r.maskMatched = some true := by
  obtain ⟨r, hok, hkey, _, hmm, _⟩ :=
    (c6_brute_force_last_match "BCD".toList (by decide) fun d => d == "ABC".toList).1
  refine ⟨r, hok, ?_, ?_⟩
  · rw [hkey]
    decide
  · rw [hmm]
    decide

/-! ### Claim C10: frequency analysis when every candidate fails -/

theorem freqFold_all_fail {K : Type} (decrypt : K → Option (List Char))
    (score3 : List Char → Option (ℚ × ℚ × ℚ)) (l : List K) (acc : K × Option ℚ)
    (h : ∀ k ∈ l, (decrypt k).bind score3 = none) :
    l.foldl (freqStep decrypt score3) acc = acc := by
  induction l generalizing acc with
  | nil => rfl
  | cons k t ih =>
    rw [List.foldl_cons]
    have hstep : freqStep decrypt score3 acc k = acc := by
      have hk := h k (List.mem_cons_self k t)
      rw [freqStep]
      cases hd : decrypt k with
      | none => rfl
      | some d =>
        rw [hd] at hk
        simp only [Option.some_bind] at hk
        dsimp only
        rw [hk]
    rw [hstep]
    exact ih _ fun k2 hk2 => h k2 (List.mem_cons_of_mem _ hk2)

/-- Counterexample to C10 as stated: one candidate key exists (`[0]`) but its
construction/decode raises (`decrypt = none` everywhere); after the loop the
attack rebuilds the first key **outside** any handler, so the exception
propagates instead of a result with confidence −∞ being returned. -/
theorem c10_propagates_counterexample :
    freqAnalysisBase [0] (fun _ => none) (fun _ => none) (fun _ => ((0 : ℚ), (0 : ℚ), (0 : ℚ)))
      ['A'] = .error .uncaughtException := rfl

/-- C10 amended: the no-valid-key `ValueError` is raised iff the enumerated
key space is empty (for a nonempty ciphertext). When candidates exist but
every candidate's construction/decode or scoring raises internally, the
attack re-runs construction and decode for the *first* enumerated key outside
the loop's handlers: if that decode succeeds (only the scoring had failed)
the attack returns the first key with confidence −∞; if it raises, the
exception propagates and no result is returned. -/
theorem c10_freq_analysis_amended {K : Type} (keys : List K)
    (decrypt : K → Option (List Char)) (score3 : List Char → Option (ℚ × ℚ × ℚ))
    (scoreFinal : List Char → ℚ × ℚ × ℚ) (ct : List Char) (hct : ct ≠ []) :
    (freqAnalysisBase keys decrypt score3 scoreFinal ct = .error .valueError ↔ keys = []) ∧
    (∀ k0 rest, keys = k0 :: rest →
      (∀ k ∈ keys, (decrypt k).bind score3 = none) →
      ((∀ d, decrypt k0 = some d →
        freqAnalysisBase keys decrypt score3 scoreFinal ct =
          .ok ⟨k0, none, d, scoreFinal d⟩) ∧
       (decrypt k0 = none →
        freqAnalysisBase keys decrypt score3 scoreFinal ct = .error .uncaughtException))) := by
  constructor
  · cases keys with
    | nil =>
      rw [freqAnalysisBase, if_neg hct]
      simp
    | cons k0 rest =>
      rw [freqAnalysisBase, if_neg hct]
      dsimp only
      constructor
      · intro h
        cases hd : decrypt ((k0 :: rest).foldl (freqStep decrypt score3) (k0, none)).1 with
        | none =>
          rw [hd] at h
          injection h with h2
          exact PyErr.noConfusion h2
        | some d =>
          rw [hd] at h
          exact Except.noConfusion h
      · intro h
        simp at h
  · intro k0 rest hkeys hall
    subst hkeys
    have hfold : (k0 :: rest).foldl (freqStep decrypt score3) (k0, none) = (k0, none) :=
      freqFold_all_fail _ _ _ _ hall
    constructor
    · intro d hd
      rw [freqAnalysisBase, if_neg hct]
      dsimp only
      rw [hfold]
      dsimp only
      rw [hd]
    · intro hd
      rw [freqAnalysisBase, if_neg hct]
      dsimp only
      rw [hfold]
      dsimp only
      rw [hd]

/-- Witness for C10 (amended): a singleton key space whose scoring always
fails but whose decode succeeds returns the first key with confidence −∞. -/
theorem c10_freq_analysis_amended_witness :
    freqAnalysisBase [7] (fun _ => some ['X']) (fun _ => none)
      (fun _ => ((0 : ℚ), (0 : ℚ), (0 : ℚ))) ['A'] =
      .ok ⟨7, none, ['X'], (0, 0, 0)⟩ :=
  ((c10_freq_analysis_amended [7] (fun _ => some ['X']) (fun _ => none)
      (fun _ => ((0 : ℚ), (0 : ℚ), (0 : ℚ))) ['A'] (by decide)).2 7 [] rfl
    (by intro k _; rfl)).1 ['X'] rfl

/-! ### Claim C3: the returned component scores are computed on bytes -/

/-- C3 (evaluating the code at the failing input): with the spec-modelled
monogram table `{"D": -1}` and floor `-5` (the n-gram data files are not in
the source tree; per the spec each stored log-probability exceeds the floor),
the Caesar frequency analysis on ciphertext "E" selects shift 1 and
decrypted text "D", but the returned `monogram_score` is `-5` — the score of
`"D".encode("utf-8")`, whose `bytes` n-grams never equal the `str` table keys
— while the monogram scorer applied to the decrypted *string* "D" gives
`-1`. The claim's equality fails: `-5 ≠ -1`. -/
theorem c3_component_scores_code_bug :
    caesarFreqAnalysis [("D".toList, -1)] [] [] (-5) (-5) (-5) "E".toList =
      .ok ⟨1, some (-3/10), "D".toList, -5, 0, 0⟩ ∧
    ngramScore [("D".toList, -1)] (-5) 1 (.str "D".toList) = -1 ∧
    ngramScore [("D".toList, -1)] (-5) 1 (.bytes (utf8Encode "D".toList)) = -5 ∧
    ((-5 : ℚ) ≠ -1) := by
  refine ⟨of_decide_eq_true (by with_unfolding_all rfl),
    of_decide_eq_true (by with_unfolding_all rfl),
    of_decide_eq_true (by with_unfolding_all rfl),
    of_decide_eq_true (by with_unfolding_all rfl)⟩

end Hordekit
